import Mathlib

/-!
Verification of the radial matching / mutation subsystem
(`src/prolcs/match/radial.py`, geometry helpers from `src/berbl/utils.py`)
and of the variational linear classifier (`src/prolcs/linear/classifier.py`).

The Python code works on IEEE doubles; we embed the arithmetic over `ℝ`
(so "within floating tolerance" statements become exact identities).
Randomness (`np.random.RandomState`) is modelled by passing the realized
draws as explicit arguments.  The external SciPy routine
`scipy.stats.chi2.ppf(cover_confidence, n)` is not part of this repository;
each definition that calls it receives its value at the (fixed) confidence
and dimensionality as an explicit parameter `q`, which is strictly positive
whenever the confidence lies in `(0, 1)`.
-/

noncomputable section

open scoped BigOperators
open scoped Matrix
open Matrix (vecMulVec)

namespace Berbl

/-- Embeds `utils.space_vol`: the volume `2.**dim` of the cube `[-1, 1]^dim`. -/
def space_vol (dim : ℕ) : ℝ := 2 ^ dim

/-- Embeds `utils.ball_vol`: volume `π^(n/2) / Γ(n/2 + 1) * r^n` of an
`n`-ball of radius `r`. -/
def ball_vol (r : ℝ) (n : ℕ) : ℝ :=
  Real.pi ^ ((n : ℝ) / 2) / Real.Gamma ((n : ℝ) / 2 + 1) * r ^ n

/-- Embeds `utils.ellipsoid_vol`: volume
`π^(n/2) / Γ(n/2 + 1) * ∏ rs` of an ellipsoid with radii `rs`. -/
def ellipsoid_vol {n : ℕ} (rs : Fin n → ℝ) : ℝ :=
  Real.pi ^ ((n : ℝ) / 2) / Real.Gamma ((n : ℝ) / 2 + 1) * ∏ i, rs i

/-- Embeds `radial._covered_vol`: ellipsoid radii are
`np.sqrt(chi2.ppf(cover_confidence, n) * eigvals)`; `q` stands for the
external value `chi2.ppf(cover_confidence, n)`. -/
def _covered_vol {n : ℕ} (eigvals : Fin n → ℝ) (q : ℝ) : ℝ :=
  ellipsoid_vol (fun i => Real.sqrt (q * eigvals i))

/-- Embeds `radial._stretch`.  The realized random choices are passed in:
`s` is the drawn sign (`1` or `-1`), `i0` the drawn balancing index and
`draws` the vector drawn from `normal(loc=eigvals, scale=eigvals * scale)`
(the entry `draws i0` is never used, matching the code which overwrites it).
`q` stands for `chi2.ppf(cover_confidence, n)`. -/
def _stretch {n : ℕ} (eigvals : Fin n → ℝ) (vol scale : ℝ) (q : ℝ)
    (s : ℝ) (i0 : Fin n) (draws : Fin n → ℝ) : Fin n → ℝ :=
  -- the drawn entry at i0 is first "deleted" (set to 1, neutral wrt the
  -- product), and then overwritten by the balancing eigenvalue that makes
  -- the covered volume change by s * vol
  Function.update (Function.update draws i0 1) i0
    (((∏ i, Real.sqrt (eigvals i))
        + s * vol * Real.Gamma ((n : ℝ) / 2 + 1)
          / (Real.pi ^ ((n : ℝ) / 2) * Real.sqrt q ^ n)) ^ 2
      * (1 / ∏ i, Function.update draws i0 1 i))

/-- Embeds `radial._rotate`: the Givens-type rotation
`R = I + (cos θ - 1) (v₁v₁ᵀ + v₂v₂ᵀ) + sin θ (v₁v₂ᵀ - v₂v₁ᵀ)` applied to the
eigenvector matrix, with `θ` the angle converted from degrees to radians. -/
def _rotate {d : ℕ} (eigvecs : Matrix (Fin d) (Fin d) ℝ) (angle : ℝ)
    (i1 i2 : Fin d) : Matrix (Fin d) (Fin d) ℝ :=
  (1 + (Real.cos (angle * 2 * Real.pi / 360) - 1) •
      (vecMulVec (eigvecs i1) (eigvecs i1) + vecMulVec (eigvecs i2) (eigvecs i2))
    + Real.sin (angle * 2 * Real.pi / 360) •
      (vecMulVec (eigvecs i1) (eigvecs i2) - vecMulVec (eigvecs i2) (eigvecs i1)))
  * eigvecs

/-- Embeds `radial._check_input_dim`: the adjusted dimensionality
`D_X - has_bias` (the `assert D_X_adj > 1` is carried as a hypothesis by the
theorems that need it). -/
def _check_input_dim (D_X : ℕ) (has_bias : Bool) : ℕ := D_X - has_bias.toNat

/-- Embeds the `RadialMatch` object state.  `__init__` sets
`D_X_adj = mean.shape[0]` (i.e. `d`); constructors in this file do the same. -/
structure RadialMatch (d : ℕ) where
  mean : Fin d → ℝ
  eigvals : Fin d → ℝ
  eigvecs : Matrix (Fin d) (Fin d) ℝ
  has_bias : Bool
  D_X_adj : ℕ

/-- Embeds `RadialMatch.random_ball`.  The random draws (`mean` uniform in
`[-1,1]^d`, Haar-orthogonal `eigvecs`) are passed in as `mean_draw` and
`eigvecs_draw`; `q` stands for `chi2.ppf(cover_confidence, D_X_adj)`. -/
def RadialMatch.random_ball (D_X : ℕ) (has_bias : Bool)
    (cover_confidence coverage q : ℝ)
    (mean_draw : Fin (_check_input_dim D_X has_bias) → ℝ)
    (eigvecs_draw :
      Matrix (Fin (_check_input_dim D_X has_bias)) (Fin (_check_input_dim D_X has_bias)) ℝ) :
    RadialMatch (_check_input_dim D_X has_bias) :=
  { mean := mean_draw
    eigvals := fun _ =>
      ((coverage * space_vol (_check_input_dim D_X has_bias)
          * Real.Gamma ((_check_input_dim D_X has_bias : ℝ) / 2 + 1)
          / Real.pi ^ ((_check_input_dim D_X has_bias : ℝ) / 2))
        ^ ((1 : ℝ) / (_check_input_dim D_X has_bias : ℝ))) ^ 2 / q
    eigvecs := eigvecs_draw
    has_bias := has_bias
    D_X_adj := _check_input_dim D_X has_bias }

/-- Embeds `RadialMatch.covered_vol`. -/
def RadialMatch.covered_vol {d : ℕ} (r : RadialMatch d) (q : ℝ) : ℝ :=
  _covered_vol r.eigvals q

/-- Embeds `RadialMatch._covariance`:
`eigvecs @ np.diag(eigvals) @ eigvecs.T`. -/
def RadialMatch._covariance {d : ℕ} (r : RadialMatch d) :
    Matrix (Fin d) (Fin d) ℝ :=
  r.eigvecs * Matrix.diagonal r.eigvals * r.eigvecs.transpose

/-- The value `np.finfo(None).tiny` for IEEE float64: the smallest
positive normal double `2 ^ (-1022)`. -/
def np_tiny : ℝ := 2 ^ (-(1022 : ℤ))

/-- The clamp `np.clip(x, a_min, a_max)`. -/
def np_clip (x a_min a_max : ℝ) : ℝ := min (max x a_min) a_max

/-- The density of `scipy.stats.multivariate_normal(mean, cov).pdf` at `x`
(the external SciPy routine, written out mathematically):
`(2π)^(-d/2) det(cov)^(-1/2) exp(-(x-mean)ᵀ cov⁻¹ (x-mean) / 2)`. -/
def mvn_pdf {d : ℕ} (mean : Fin d → ℝ) (cov : Matrix (Fin d) (Fin d) ℝ)
    (x : Fin d → ℝ) : ℝ :=
  (2 * Real.pi) ^ (-(d : ℝ) / 2) * cov.det ^ (-(1 : ℝ) / 2) *
    Real.exp (-(1 / 2) * ((x - mean) ⬝ᵥ (cov⁻¹ *ᵥ (x - mean))))

/-- Embeds `RadialMatch._match_wo_bias`: the Gaussian density at each input
row, clipped to `[np.finfo(None).tiny, 1]` and returned as one entry per
row.  Input rows are plain lists (read positionally, as NumPy does); the
single-row case needs no special treatment here since `map` already yields
a length-1 list. -/
def RadialMatch._match_wo_bias {d : ℕ} (r : RadialMatch d)
    (X : List (List ℝ)) : List ℝ :=
  X.map fun row =>
    np_clip (mvn_pdf r.mean r._covariance (fun j => row.getD j 0)) np_tiny 1

/-- Embeds `RadialMatch.match`: with a bias column the first column of `X`
is dropped (`X.T[1:].T`) before `_match_wo_bias`. -/
def RadialMatch.matchv {d : ℕ} (r : RadialMatch d) (X : List (List ℝ)) :
    List ℝ :=
  r._match_wo_bias (if r.has_bias then X.map (List.drop 1) else X)

/-- Stable insertion of an index into an index list sorted by `key`
ascending (helper for `argsort`). -/
def insertSorted {α : Type*} [LinearOrder α] (key : ℕ → α) (i : ℕ) :
    List ℕ → List ℕ
  | [] => [i]
  | j :: js => if key i ≤ key j then i :: j :: js else j :: insertSorted key i js

/-- Insertion sort of an index list by `key` ascending (helper for
`argsort`). -/
def sortIdx {α : Type*} [LinearOrder α] (key : ℕ → α) (l : List ℕ) : List ℕ :=
  l.foldr (insertSorted key) []

/-- Embeds `np.argsort(l)`: the indices of `l` sorted so the corresponding values
ascend (for pairwise-distinct values this is the unique sorting
permutation, which is all the claims need). -/
def argsort {α : Type*} [LinearOrder α] [Inhabited α] (l : List α) : List ℕ :=
  sortIdx (fun i => l.getD i default) (List.range l.length)

/-- Embeds `ranks = np.argsort(- match.eigvals) + 1` from `radial.mutate`
(line 367). -/
def mutate_ranks {α : Type*} [LinearOrderedField α] [Inhabited α]
    (eigvals : List α) : List ℕ :=
  (argsort (eigvals.map fun x => -x)).map (· + 1)

/-- Embeds `weights = ranks / np.sum(ranks)` from `radial.mutate`
(line 371): the probability weights used to draw the two rotation-plane
axes without replacement. -/
def mutate_weights {α : Type*} [LinearOrderedField α] [Inhabited α]
    (eigvals : List α) : List α :=
  (mutate_ranks eigvals).map fun (r : ℕ) =>
    (r : α) / ((mutate_ranks eigvals).sum : α)

/-- Embeds `radial.mutate`: stretches the eigenvalues in place, then
rotates the eigenvectors in the plane of the two drawn axes `i1, i2`
(drawn without replacement with probabilities `mutate_weights` of the
stretched eigenvalues) by the drawn angle times the drawn sign.  All
random draws are passed in; `q` stands for
`chi2.ppf(cover_confidence, d)`. -/
def mutate {d : ℕ} (r : RadialMatch d) (q vol pscale : ℝ)
    (s_stretch : ℝ) (i0 : Fin d) (draws : Fin d → ℝ)
    (i1 i2 : Fin d) (angle_draw s_rot : ℝ) : RadialMatch d :=
  { r with
    eigvals := _stretch r.eigvals vol pscale q s_stretch i0 draws
    eigvecs := _rotate r.eigvecs (s_rot * angle_draw) i1 i2 }

/-- Hyperparameters of `linear.classifier.Classifier`, fixed at
construction. -/
structure Hyper where
  A_ALPHA : ℝ
  B_ALPHA : ℝ
  A_TAU : ℝ
  B_TAU : ℝ
  DELTA_S_L_K_Q : ℝ
  MAX_ITER : ℕ

/-- The numerical kernels that `Classifier.fit` calls from external
libraries (NumPy/SciPy): the pseudo-inverse `np.linalg.pinv`,
`scipy.special.digamma` and `scipy.special.gammaln`.  They are
deterministic functions; their values are supplied as parameters. -/
structure NumLib (DX : ℕ) where
  pinv : Matrix (Fin DX) (Fin DX) ℝ → Matrix (Fin DX) (Fin DX) ℝ
  digamma : ℝ → ℝ
  gammaln : ℝ → ℝ

/-- The fitted state written by `Classifier.fit` (the `self.*_` fields).
`L_q_` lives in `EReal` because the code initializes it to `-np.inf`.
`Lambda_`, `Lambda_1_` and `W_` are junk-initialized to `0`; the loop body
assigns each of them before reading it. -/
structure FitState (N DX Dy : ℕ) where
  m_ : Fin N → ℝ
  a_alpha_ : ℝ
  b_alpha_ : ℝ
  a_tau_ : ℝ
  b_tau_ : ℝ
  L_q_ : EReal
  Lambda_ : Matrix (Fin DX) (Fin DX) ℝ
  Lambda_1_ : Matrix (Fin DX) (Fin DX) ℝ
  W_ : Matrix (Fin Dy) (Fin DX) ℝ

/-- Embeds `linear.classifier.Classifier`: the match function reference,
the hyperparameters and the (initially absent) fitted state. -/
structure Classifier (N DX Dy : ℕ) where
  matchf : Matrix (Fin N) (Fin DX) ℝ → Fin N → ℝ
  hyper : Hyper
  fitted : Option (FitState N DX Dy)

/-- Embeds `Classifier.var_bound` (the evidence lower bound
`L_1_q + L_2_q + L_3_q + L_4_q`). -/
def var_bound {N DX Dy : ℕ} (nl : NumLib DX) (h : Hyper)
    (X : Matrix (Fin N) (Fin DX) ℝ) (y : Matrix (Fin N) (Fin Dy) ℝ)
    (r : Fin N → ℝ) (st : FitState N DX Dy) : ℝ :=
  let E_tau_tau := st.a_tau_ / st.b_tau_
  let L_1_q := (Dy : ℝ) / 2 * (nl.digamma st.a_tau_ - Real.log st.b_tau_
      - Real.log (2 * Real.pi)) * ∑ n, r n
  let L_2_q := ∑ n, (-(1 / 2) * r n) *
      (E_tau_tau * (∑ j, (y n j - (X * st.W_.transpose) n j) ^ 2)
        + (Dy : ℝ) * ∑ i, X n i * (X * st.Lambda_1_) n i)
  let L_3_q := -nl.gammaln h.A_ALPHA + h.A_ALPHA * Real.log h.B_ALPHA
      + nl.gammaln st.a_alpha_ - st.a_alpha_ * Real.log st.b_alpha_
      + (DX : ℝ) * (Dy : ℝ) / 2 + (Dy : ℝ) / 2 * Real.log st.Lambda_1_.det
  let L_4_q := (Dy : ℝ) * (-nl.gammaln h.A_TAU + h.A_TAU * Real.log h.B_TAU
      + (h.A_TAU - st.a_tau_) * nl.digamma st.a_tau_
      - h.A_TAU * Real.log st.b_tau_ - h.B_TAU * E_tau_tau
      + nl.gammaln st.a_tau_ + st.a_tau_)
  L_1_q + L_2_q + L_3_q + L_4_q

/-- The loop-carried data of `Classifier.fit`: the `self.*_` fields plus
the local variables `delta_L_q` and `iter`. -/
structure LoopSt (N DX Dy : ℕ) where
  st : FitState N DX Dy
  delta_L_q : EReal
  iter : ℕ

/-- One iteration of the coordinate-ascent loop in `Classifier.fit`
(lines 71-98). -/
def fitStep {N DX Dy : ℕ} (nl : NumLib DX) (h : Hyper)
    (X : Matrix (Fin N) (Fin DX) ℝ) (y : Matrix (Fin N) (Fin Dy) ℝ)
    (X_ : Matrix (Fin N) (Fin DX) ℝ) (y_ : Matrix (Fin N) (Fin Dy) ℝ)
    (ls : LoopSt N DX Dy) : LoopSt N DX Dy :=
  let E_alpha_alpha := ls.st.a_alpha_ / ls.st.b_alpha_
  let Lambda_ := Matrix.diagonal (fun _ => E_alpha_alpha) + X_.transpose * X_
  let Lambda_1_ := nl.pinv Lambda_
  let W_ := y_.transpose * X_ * Lambda_1_
  let b_tau_ := h.B_TAU + 1 / (2 * (Dy : ℝ)) *
      ((∑ n, ∑ j, y_ n j * y_ n j) - ∑ j, ∑ i, W_ j i * (W_ * Lambda_) j i)
  let E_tau_tau := ls.st.a_tau_ / b_tau_
  let b_alpha_ := h.B_ALPHA + 1 / 2 * (E_tau_tau * (∑ j, ∑ i, W_ j i * W_ j i)
      + (Dy : ℝ) * Lambda_1_.trace)
  let st' : FitState N DX Dy :=
    { ls.st with
      b_alpha_ := b_alpha_
      b_tau_ := b_tau_
      Lambda_ := Lambda_
      Lambda_1_ := Lambda_1_
      W_ := W_ }
  let L_q_new := var_bound nl h X y ls.st.m_ st'
  { st := { st' with L_q_ := (L_q_new : EReal) }
    delta_L_q := (L_q_new : EReal) - ls.st.L_q_
    iter := ls.iter + 1 }

/-- The `while delta_L_q > DELTA_S_L_K_Q and iter < MAX_ITER` loop, with
`fuel = MAX_ITER - iter` (so `fuel = 0` is exactly `iter = MAX_ITER`). -/
def fitLoop {N DX Dy : ℕ} (f : LoopSt N DX Dy → LoopSt N DX Dy)
    (DELTA : ℝ) : ℕ → LoopSt N DX Dy → LoopSt N DX Dy
  | 0, ls => ls
  | fuel + 1, ls =>
    if (DELTA : EReal) < ls.delta_L_q then fitLoop f DELTA fuel (f ls) else ls

/-- The state of `Classifier.fit` just before the loop (lines 54-70):
posterior shapes initialized analytically, `L_q_ = -np.inf`,
`delta_L_q = DELTA_S_L_K_Q + 1`, `iter = 0`. -/
def fitInit {N DX Dy : ℕ} (h : Hyper) (m : Fin N → ℝ) : LoopSt N DX Dy :=
  { st := { m_ := m
            a_alpha_ := h.A_ALPHA + (DX : ℝ) * (Dy : ℝ) / 2
            b_alpha_ := h.B_ALPHA
            a_tau_ := h.A_TAU + 1 / 2 * ∑ n, m n
            b_tau_ := h.B_TAU
            L_q_ := ⊥
            Lambda_ := 0
            Lambda_1_ := 0
            W_ := 0 }
    delta_L_q := ((h.DELTA_S_L_K_Q + 1 : ℝ) : EReal)
    iter := 0 }

/-- The complete fitted state computed by one call of `Classifier.fit`:
membership vector from the match function, row-weighted design and
targets, then the coordinate-ascent loop. -/
def fitState {N DX Dy : ℕ} (nl : NumLib DX) (c : Classifier N DX Dy)
    (X : Matrix (Fin N) (Fin DX) ℝ) (y : Matrix (Fin N) (Fin Dy) ℝ) :
    FitState N DX Dy :=
  let m := c.matchf X
  let X_ : Matrix (Fin N) (Fin DX) ℝ := Matrix.of fun n i => X n i * Real.sqrt (m n)
  let y_ : Matrix (Fin N) (Fin Dy) ℝ := Matrix.of fun n j => y n j * Real.sqrt (m n)
  (fitLoop (fitStep nl c.hyper X y X_ y_) c.hyper.DELTA_S_L_K_Q c.hyper.MAX_ITER
    (fitInit c.hyper m)).st

/-- Embeds `Classifier.fit`: recomputes the whole fitted state from
`(X, y)` and overwrites it; nothing else on the classifier changes. -/
def Classifier.fit {N DX Dy : ℕ} (nl : NumLib DX) (c : Classifier N DX Dy)
    (X : Matrix (Fin N) (Fin DX) ℝ) (y : Matrix (Fin N) (Fin Dy) ℝ) :
    Classifier N DX Dy :=
  { c with fitted := some (fitState nl c X y) }

/-- The only error `Classifier.predict_var` can raise:
the `NotFittedError` that the `sklearn` helper `check_is_fitted` raises. -/
inductive FitError where
  | notFitted

/-- Embeds `Classifier.predict_var`: after `check_is_fitted`, the value
`2 b_tau_ / (a_tau_ - 1) * (1 + rowwise(X * X @ Lambda_1_))` replicated
across the output dimensions — computed unconditionally, with no check on
`a_tau_`. -/
def Classifier.predict_var {N DX Dy M : ℕ} (c : Classifier N DX Dy)
    (X : Matrix (Fin M) (Fin DX) ℝ) :
    Except FitError (Matrix (Fin M) (Fin Dy) ℝ) :=
  match c.fitted with
  | none => Except.error FitError.notFitted
  | some st => Except.ok (Matrix.of fun n _j =>
      2 * st.b_tau_ / (st.a_tau_ - 1) * (1 + ∑ i, X n i * (X * st.Lambda_1_) n i))

/-- A concrete match function (matches everything with weight 1), used to
instantiate theorems at concrete inputs. -/
def flatMatchf : Matrix (Fin 1) (Fin 1) ℝ → Fin 1 → ℝ := fun _ _ => 1

/-- The Python default hyperparameters
`A_ALPHA=10**-2, B_ALPHA=10**-4, A_TAU=10**-2, B_TAU=10**-4,
DELTA_S_L_K_Q=10**-4, MAX_ITER=20`. -/
def hyperDefaults : Hyper :=
  { A_ALPHA := 1 / 100
    B_ALPHA := 1 / 10000
    A_TAU := 1 / 100
    B_TAU := 1 / 10000
    DELTA_S_L_K_Q := 1 / 10000
    MAX_ITER := 20 }

/-- A concrete fitted state whose posterior noise shape `a_tau_ = 1/2` is
below the inverse-gamma moment threshold `1`. -/
def badState : FitState 1 1 1 :=
  { m_ := fun _ => 1
    a_alpha_ := 1
    b_alpha_ := 1
    a_tau_ := 1 / 2
    b_tau_ := 1
    L_q_ := 0
    Lambda_ := 1
    Lambda_1_ := 1
    W_ := 0 }

/-- A concrete fitted classifier holding `badState`. -/
def badClassifier : Classifier 1 1 1 :=
  { matchf := flatMatchf, hyper := hyperDefaults, fitted := some badState }

/-- A trivial instantiation of the external numerical kernels, used to
instantiate theorems at concrete inputs. -/
def trivialNumLib (DX : ℕ) : NumLib DX :=
  { pinv := fun M => M, digamma := fun x => x, gammaln := fun x => x }

/-- A concrete bias-free matching region, used to instantiate theorems at
concrete inputs. -/
def rEx : RadialMatch 2 :=
  { mean := ![0, 0], eigvals := ![1, 1], eigvecs := 1, has_bias := false
    D_X_adj := 2 }

/-- The single matching value `rEx` produces on the one-row input
`[[0, 0]]`. -/
def vEx : ℝ :=
  np_clip (mvn_pdf rEx.mean rEx._covariance
    (fun j => ([0, 0] : List ℝ).getD j 0)) np_tiny 1

/-- Square roots distribute over finite products of nonnegative factors. -/
lemma sqrt_finset_prod {ι : Type*} (s : Finset ι) (f : ι → ℝ)
    (hf : ∀ i ∈ s, 0 ≤ f i) :
    Real.sqrt (∏ i ∈ s, f i) = ∏ i ∈ s, Real.sqrt (f i) := by
  classical
  induction s using Finset.induction_on with
  | empty => simp
  | insert ha ih =>
    rename_i a s'
    rw [Finset.prod_insert ha, Finset.prod_insert ha,
      Real.sqrt_mul (hf a (Finset.mem_insert_self a s')),
      ih (fun i hi => hf i (Finset.mem_insert_of_mem hi))]

/-- Factor the fixed `chi2.ppf` value out of a covered-volume product. -/
lemma covered_vol_eq {n : ℕ} (eigvals : Fin n → ℝ) {q : ℝ} (hq : 0 ≤ q) :
    _covered_vol eigvals q
      = Real.pi ^ ((n : ℝ) / 2) / Real.Gamma ((n : ℝ) / 2 + 1)
        * (Real.sqrt q ^ n * ∏ i, Real.sqrt (eigvals i)) := by
  unfold _covered_vol ellipsoid_vol
  congr 1
  calc (∏ i, Real.sqrt (q * eigvals i))
      = ∏ i, Real.sqrt q * Real.sqrt (eigvals i) := by
        refine Finset.prod_congr rfl fun i _ => Real.sqrt_mul hq _
    _ = Real.sqrt q ^ n * ∏ i, Real.sqrt (eigvals i) := by
        rw [Finset.prod_mul_distrib, Finset.prod_const, Finset.card_univ,
          Fintype.card_fin]

/-- C1: for strictly positive eigenvalues, positive `chi2.ppf` value `q`
(confidence held fixed), any volume delta `vol` and `scale`, any drawn sign
`s ∈ {1, -1}`, balancing index `i0` and resampled values `draws`, if the
resampled eigenvalues stay strictly positive and the sign-adjusted
square-root product stays positive, then the covered volume of the
stretched eigenvalues equals the covered volume of the originals plus
`s * vol` exactly (in real arithmetic). -/
theorem stretch_covered_vol {n : ℕ} (eigvals : Fin n → ℝ) (vol scale q s : ℝ)
    (i0 : Fin n) (draws : Fin n → ℝ)
    (hpos : ∀ i, 0 < eigvals i) (hq : 0 < q)
    (hsign : s = 1 ∨ s = -1)
    (hdraws : ∀ j, j ≠ i0 → 0 < draws j)
    (hp : 0 < (∏ i, Real.sqrt (eigvals i))
      + s * vol * Real.Gamma ((n : ℝ) / 2 + 1)
        / (Real.pi ^ ((n : ℝ) / 2) * Real.sqrt q ^ n)) :
    _covered_vol (_stretch eigvals vol scale q s i0 draws) q
      = _covered_vol eigvals q + s * vol := by
  classical
  set Γn : ℝ := Real.Gamma ((n : ℝ) / 2 + 1) with hΓn
  set πn : ℝ := Real.pi ^ ((n : ℝ) / 2) with hπn
  have hΓpos : 0 < Γn := Real.Gamma_pos_of_pos (by positivity)
  have hπpos : 0 < πn := Real.rpow_pos_of_pos Real.pi_pos _
  have hsqq : 0 < Real.sqrt q ^ n := pow_pos (Real.sqrt_pos.mpr hq) n
  set p : ℝ := (∏ i, Real.sqrt (eigvals i)) + s * vol * Γn / (πn * Real.sqrt q ^ n)
    with hpdef
  set D : ℝ := ∏ j ∈ Finset.univ \ {i0}, draws j with hDdef
  have hmem : ∀ j : Fin n, j ∈ Finset.univ \ {i0} → j ≠ i0 := fun j hj => by
    simpa using (Finset.mem_sdiff.mp hj).2
  have hD : 0 < D := Finset.prod_pos fun j hj => hdraws j (hmem j hj)
  set eigvals_ : Fin n → ℝ := Function.update draws i0 1 with he1
  have hprod_e1 : (∏ i, eigvals_ i) = D := by
    rw [he1, Finset.prod_update_of_mem (Finset.mem_univ i0), one_mul, hDdef]
  have hstretch : _stretch eigvals vol scale q s i0 draws
      = Function.update eigvals_ i0 (p ^ 2 * (1 / D)) := by
    unfold _stretch
    rw [← he1, hprod_e1, ← hΓn, ← hπn, ← hpdef]
  -- the product of the square roots of the new eigenvalues is exactly p
  have hsqrtD : Real.sqrt D ≠ 0 := ne_of_gt (Real.sqrt_pos.mpr hD)
  have hupdate : (fun i => Real.sqrt (Function.update eigvals_ i0 (p ^ 2 * (1 / D)) i))
      = Function.update (fun i => Real.sqrt (eigvals_ i)) i0
          (Real.sqrt (p ^ 2 * (1 / D))) := by
    funext j
    by_cases hj : j = i0 <;> simp [Function.update_apply, hj]
  have hprod_new : (∏ i, Real.sqrt (Function.update eigvals_ i0 (p ^ 2 * (1 / D)) i)) = p := by
    rw [hupdate, Finset.prod_update_of_mem (Finset.mem_univ i0)]
    have h1 : (∏ j ∈ Finset.univ \ {i0}, Real.sqrt (eigvals_ j))
        = Real.sqrt D := by
      rw [hDdef, sqrt_finset_prod _ _
        (fun j hj => (hdraws j (hmem j hj)).le)]
      exact Finset.prod_congr rfl fun j hj => by
        rw [he1, Function.update_noteq (hmem j hj)]
    have h2 : Real.sqrt (p ^ 2 * (1 / D)) = p / Real.sqrt D := by
      rw [one_div, Real.sqrt_mul (sq_nonneg p), Real.sqrt_sq hp.le,
        Real.sqrt_inv, ← div_eq_mul_inv]
    rw [h1, h2, div_mul_cancel₀ _ hsqrtD]
  -- expand both covered volumes and compare
  rw [hstretch, covered_vol_eq _ hq.le, covered_vol_eq _ hq.le, hprod_new,
    ← hΓn, ← hπn, hpdef]
  field_simp
  ring

/-- Witness for `stretch_covered_vol` at eigenvalues `[1, 1]`, `q = 1`,
`vol = 0`, sign `1`, balancing index `0` and draws `[4, 9]`. -/
theorem stretch_covered_vol_witness :
    _covered_vol (_stretch ![(1 : ℝ), 1] 0 (1 / 10) 1 1 0 ![4, 9]) 1
      = _covered_vol ![(1 : ℝ), 1] 1 + 1 * 0 :=
  stretch_covered_vol ![(1 : ℝ), 1] 0 (1 / 10) 1 1 0 ![4, 9]
    (fun i => by fin_cases i <;> norm_num)
    one_pos
    (Or.inl rfl)
    (fun j hj => by
      fin_cases j
      · exact absurd rfl hj
      · norm_num)
    (by norm_num [Fin.prod_univ_two, Real.sqrt_one])

/-- C4 counterexample: with eigenvalues `[4, 4]`, a drawn sign `1`,
balancing index `1` and the (perfectly possible) normal draw `[-1, 99]`,
the region returned by `mutate` has first eigenvalue `-1 < 0`: the code
contains no clipping or rejection. -/
theorem mutate_negative_eigenvalue :
    (mutate ⟨![0, 0], ![(4 : ℝ), 4], 1, true, 2⟩ 1 0 (1 / 10) 1 1 ![-1, 99]
      0 1 18 1).eigvals 0 < 0 := by
  show _stretch ![(4 : ℝ), 4] 0 (1 / 10) 1 1 1 ![-1, 99] 0 < 0
  unfold _stretch
  rw [Function.update_noteq (by decide), Function.update_noteq (by decide)]
  norm_num

/-- C4 (amended): after `mutate` every eigenvalue is strictly positive
PROVIDED the resampled eigenvalues (the drawn entries other than the
balancing index) are strictly positive and the sign-adjusted square-root
product is nonzero — the hypotheses the counterexample
`mutate_negative_eigenvalue` shows are necessary. -/
theorem mutate_eigvals_pos {d : ℕ} (r : RadialMatch d)
    (q vol pscale s_stretch : ℝ) (i0 : Fin d) (draws : Fin d → ℝ)
    (i1 i2 : Fin d) (angle_draw s_rot : ℝ)
    (hdraws : ∀ j, j ≠ i0 → 0 < draws j)
    (hp : (∏ i, Real.sqrt (r.eigvals i))
      + s_stretch * vol * Real.Gamma ((d : ℝ) / 2 + 1)
        / (Real.pi ^ ((d : ℝ) / 2) * Real.sqrt q ^ d) ≠ 0) :
    ∀ i, 0 < (mutate r q vol pscale s_stretch i0 draws i1 i2
      angle_draw s_rot).eigvals i := by
  intro i
  show 0 < _stretch r.eigvals vol pscale q s_stretch i0 draws i
  unfold _stretch
  by_cases hi : i = i0
  · subst hi
    rw [Function.update_same]
    have hD : 0 < ∏ j, Function.update draws i 1 j := by
      rw [Finset.prod_update_of_mem (Finset.mem_univ i), one_mul]
      exact Finset.prod_pos fun j hj =>
        hdraws j (by simpa using (Finset.mem_sdiff.mp hj).2)
    exact mul_pos (pow_two_pos_of_ne_zero hp) (one_div_pos.mpr hD)
  · rw [Function.update_noteq hi, Function.update_noteq hi]
    exact hdraws i hi

/-- Witness for `mutate_eigvals_pos` with eigenvalues `[1, 1]`, positive
draws `[4, 9]` and balancing index `0`. -/
theorem mutate_eigvals_pos_witness :
    0 < (mutate ⟨![0, 0], ![(1 : ℝ), 1], 1, true, 2⟩ 1 0 (1 / 10) 1 0
      ![4, 9] 0 1 18 1).eigvals 0
    ∧ 0 < (mutate ⟨![0, 0], ![(1 : ℝ), 1], 1, true, 2⟩ 1 0 (1 / 10) 1 0
      ![4, 9] 0 1 18 1).eigvals 1 :=
  ⟨mutate_eigvals_pos ⟨![0, 0], ![(1 : ℝ), 1], 1, true, 2⟩ 1 0 (1 / 10) 1 0
    ![4, 9] 0 1 18 1
    (fun j hj => by
      fin_cases j
      · exact absurd rfl hj
      · norm_num)
    (by norm_num [Fin.prod_univ_two, Real.sqrt_one]) 0,
   mutate_eigvals_pos ⟨![0, 0], ![(1 : ℝ), 1], 1, true, 2⟩ 1 0 (1 / 10) 1 0
    ![4, 9] 0 1 18 1
    (fun j hj => by
      fin_cases j
      · exact absurd rfl hj
      · norm_num)
    (by norm_num [Fin.prod_univ_two, Real.sqrt_one]) 1⟩

/-- The product of two outer products contracts over the inner dot
product: `(a bᵀ)(x yᵀ) = (b ⬝ x) (a yᵀ)`. -/
lemma vecMulVec_mul_vecMulVec {n : ℕ} (a b x y : Fin n → ℝ) :
    vecMulVec a b * vecMulVec x y = (b ⬝ᵥ x) • vecMulVec a y := by
  ext i j
  simp only [Matrix.mul_apply, Matrix.vecMulVec_apply, Matrix.smul_apply,
    smul_eq_mul, Matrix.dotProduct, Finset.sum_mul]
  exact Finset.sum_congr rfl fun k _ => by ring

/-- Transposing an outer product swaps its factors. -/
lemma vecMulVec_tr {n : ℕ} (a b : Fin n → ℝ) :
    (vecMulVec a b).transpose = vecMulVec b a := by
  ext i j
  simp [Matrix.vecMulVec_apply, mul_comm]

/-- The Givens-type matrix
`R = I + (c - 1)(v₁v₁ᵀ + v₂v₂ᵀ) + s (v₁v₂ᵀ - v₂v₁ᵀ)` built in `_rotate`
satisfies `R Rᵀ = I` whenever `c² + s² = 1` and `v₁, v₂` are orthonormal. -/
lemma rotation_matrix_orthogonal {d : ℕ} (v1 v2 : Fin d → ℝ) (c s : ℝ)
    (hcs : c ^ 2 + s ^ 2 = 1)
    (h11 : v1 ⬝ᵥ v1 = 1) (h22 : v2 ⬝ᵥ v2 = 1)
    (h12 : v1 ⬝ᵥ v2 = 0) (h21 : v2 ⬝ᵥ v1 = 0) :
    (1 + (c - 1) • (vecMulVec v1 v1 + vecMulVec v2 v2)
       + s • (vecMulVec v1 v2 - vecMulVec v2 v1))
    * (1 + (c - 1) • (vecMulVec v1 v1 + vecMulVec v2 v2)
       + s • (vecMulVec v1 v2 - vecMulVec v2 v1)).transpose = 1 := by
  set V := vecMulVec v1 v1 + vecMulVec v2 v2 with hV
  set W := vecMulVec v1 v2 - vecMulVec v2 v1 with hW
  have hVt : V.transpose = V := by
    rw [hV, Matrix.transpose_add, vecMulVec_tr, vecMulVec_tr]
  have hWt : W.transpose = -W := by
    rw [hW, Matrix.transpose_sub, vecMulVec_tr, vecMulVec_tr]
    exact (neg_sub _ _).symm
  have hVV : V * V = V := by
    rw [hV]
    simp only [add_mul, mul_add, vecMulVec_mul_vecMulVec, h11, h22, h12, h21,
      one_smul, zero_smul, add_zero, zero_add]
  have hVW : V * W = W := by
    rw [hV, hW]
    simp only [add_mul, mul_sub, sub_mul, mul_add, vecMulVec_mul_vecMulVec,
      h11, h22, h12, h21, one_smul, zero_smul, sub_zero, zero_sub, add_zero,
      zero_add]
  have hWV : W * V = W := by
    rw [hV, hW]
    simp only [add_mul, mul_sub, sub_mul, mul_add, vecMulVec_mul_vecMulVec,
      h11, h22, h12, h21, one_smul, zero_smul, sub_zero, zero_sub, add_zero,
      zero_add]
    abel
  have hWW : W * W = -V := by
    rw [hV, hW]
    simp only [mul_sub, sub_mul, vecMulVec_mul_vecMulVec, h11, h22, h12, h21,
      one_smul, zero_smul, sub_zero, zero_sub, add_zero, zero_add]
    abel
  have hTr : (1 + (c - 1) • V + s • W).transpose = 1 + (c - 1) • V - s • W := by
    rw [Matrix.transpose_add, Matrix.transpose_add, Matrix.transpose_one,
      Matrix.transpose_smul, Matrix.transpose_smul, hVt, hWt, smul_neg,
      ← sub_eq_add_neg]
  rw [hTr]
  have key : (1 + (c - 1) • V + s • W) * (1 + (c - 1) • V - s • W)
      = 1 + ((c - 1) * 2 + (c - 1) * (c - 1) + s * s) • V := by
    simp only [mul_add, add_mul, mul_sub, sub_mul, one_mul, mul_one,
      Matrix.smul_mul, Matrix.mul_smul, hVV, hVW, hWV, hWW, smul_smul,
      smul_neg, smul_sub, smul_add]
    module
  have hzero : (c - 1) * 2 + (c - 1) * (c - 1) + s * s = 0 := by
    nlinarith [hcs]
  rw [key, hzero, zero_smul, add_zero]

/-- C2: for an eigenvector matrix with orthonormal rows and distinct plane
axes `i1 ≠ i2`, the matrix returned by `_rotate` again has orthonormal
rows: its product with its own transpose is the identity (exactly, in
real arithmetic), because the constructed rotation matrix is orthogonal. -/
theorem rotate_orthonormal {d : ℕ} (eigvecs : Matrix (Fin d) (Fin d) ℝ)
    (angle : ℝ) (i1 i2 : Fin d)
    (hE : eigvecs * eigvecs.transpose = 1) (hne : i1 ≠ i2) :
    _rotate eigvecs angle i1 i2 * (_rotate eigvecs angle i1 i2).transpose
      = 1 := by
  have hdot : ∀ i j, eigvecs i ⬝ᵥ eigvecs j
      = (1 : Matrix (Fin d) (Fin d) ℝ) i j := by
    intro i j
    have h := congrFun (congrFun hE i) j
    simpa [Matrix.mul_apply, Matrix.transpose_apply, Matrix.dotProduct] using h
  have h11 : eigvecs i1 ⬝ᵥ eigvecs i1 = 1 := by
    rw [hdot]; exact Matrix.one_apply_eq i1
  have h22 : eigvecs i2 ⬝ᵥ eigvecs i2 = 1 := by
    rw [hdot]; exact Matrix.one_apply_eq i2
  have h12 : eigvecs i1 ⬝ᵥ eigvecs i2 = 0 := by
    rw [hdot]; exact Matrix.one_apply_ne hne
  have h21 : eigvecs i2 ⬝ᵥ eigvecs i1 = 0 := by
    rw [hdot]; exact Matrix.one_apply_ne hne.symm
  have hRR := rotation_matrix_orthogonal (eigvecs i1) (eigvecs i2)
    (Real.cos (angle * 2 * Real.pi / 360))
    (Real.sin (angle * 2 * Real.pi / 360))
    (Real.cos_sq_add_sin_sq _) h11 h22 h12 h21
  unfold _rotate
  rw [Matrix.transpose_mul, Matrix.mul_assoc,
    ← Matrix.mul_assoc eigvecs eigvecs.transpose, hE, Matrix.one_mul, hRR]

/-- Witness for `rotate_orthonormal` at the identity eigenvector matrix,
angle 18 degrees and plane `(0, 1)`. -/
theorem rotate_orthonormal_witness :
    _rotate (1 : Matrix (Fin 2) (Fin 2) ℝ) 18 0 1
      * (_rotate (1 : Matrix (Fin 2) (Fin 2) ℝ) 18 0 1).transpose = 1 :=
  rotate_orthonormal 1 18 0 1
    (by rw [Matrix.transpose_one, Matrix.one_mul]) (by decide)

/-- C3: for adjusted dimensionality `d > 1`, positive coverage and a
positive `chi2.ppf` value `q`, the region built by `random_ball` covers
exactly `coverage * 2^d`, the requested fraction of the `[-1, 1]^d` input
space volume, for any random draws (so in particular the construction is a
deterministic function of the drawn values). -/
theorem random_ball_covered_vol (D_X : ℕ) (has_bias : Bool)
    (cover_confidence coverage q : ℝ)
    (mean_draw : Fin (_check_input_dim D_X has_bias) → ℝ)
    (eigvecs_draw : Matrix (Fin (_check_input_dim D_X has_bias))
      (Fin (_check_input_dim D_X has_bias)) ℝ)
    (hd : 1 < _check_input_dim D_X has_bias)
    (hcov : 0 < coverage) (hq : 0 < q) :
    (RadialMatch.random_ball D_X has_bias cover_confidence coverage q
      mean_draw eigvecs_draw).covered_vol q
      = coverage * space_vol (_check_input_dim D_X has_bias) := by
  unfold RadialMatch.covered_vol RadialMatch.random_ball _covered_vol
    ellipsoid_vol
  dsimp only
  set d := _check_input_dim D_X has_bias with hdd
  have hd0 : (d : ℝ) ≠ 0 := Nat.cast_ne_zero.mpr (by omega)
  have hΓpos : 0 < Real.Gamma ((d : ℝ) / 2 + 1) :=
    Real.Gamma_pos_of_pos (by positivity)
  have hπpos : 0 < Real.pi ^ ((d : ℝ) / 2) :=
    Real.rpow_pos_of_pos Real.pi_pos _
  have hVpos : 0 < space_vol d := by unfold space_vol; positivity
  set base : ℝ := coverage * space_vol d * Real.Gamma ((d : ℝ) / 2 + 1)
    / Real.pi ^ ((d : ℝ) / 2) with hbase
  have hbasepos : 0 < base := by rw [hbase]; positivity
  set r : ℝ := base ^ ((1 : ℝ) / (d : ℝ)) with hr
  have hrpos : 0 < r := Real.rpow_pos_of_pos hbasepos _
  have hrd : r ^ (d : ℕ) = base := by
    rw [hr, ← Real.rpow_natCast (base ^ ((1 : ℝ) / (d : ℝ))) d,
      ← Real.rpow_mul hbasepos.le, one_div, inv_mul_cancel₀ hd0,
      Real.rpow_one]
  rw [Finset.prod_const, Finset.card_univ, Fintype.card_fin]
  have hqr : q * (r ^ 2 / q) = r ^ 2 := by field_simp
  rw [hqr, Real.sqrt_sq hrpos.le, hrd, hbase]
  field_simp
  ring

/-- Witness for `random_ball_covered_vol` at the example given in the spec:
`D_X = 3` with bias (`d = 2`), `coverage = 1/5` and `q = 1`:
the covered volume is `1/5 * 4`. -/
theorem random_ball_covered_vol_witness :
    (RadialMatch.random_ball 3 true (1 / 2) (1 / 5) 1 (fun _ => 0)
      1).covered_vol 1
      = 1 / 5 * space_vol (_check_input_dim 3 true) :=
  random_ball_covered_vol 3 true (1 / 2) (1 / 5) 1 (fun _ => 0) 1
    (by decide) (by norm_num) one_pos

/-- C5: `match` returns one entry per input row, and every entry lies in
`[np.finfo(None).tiny, 1]` — never exactly zero, never above 1 — for every
region and every input, including single-row inputs. -/
theorem match_in_range {d : ℕ} (r : RadialMatch d) (X : List (List ℝ))
    (v : ℝ) (hv : v ∈ r.matchv X) :
    (r.matchv X).length = X.length ∧ np_tiny ≤ v ∧ v ≤ 1 := by
  have htiny : np_tiny ≤ 1 := by unfold np_tiny; norm_num
  constructor
  · unfold RadialMatch.matchv RadialMatch._match_wo_bias
    by_cases hb : r.has_bias <;> simp [hb]
  · unfold RadialMatch.matchv RadialMatch._match_wo_bias at hv
    rw [List.mem_map] at hv
    obtain ⟨row, _, rfl⟩ := hv
    unfold np_clip
    exact ⟨le_min (le_max_right _ _) htiny, min_le_right _ _⟩

/-- Witness for `match_in_range` at the concrete region `rEx` and the
one-row input `[[0, 0]]`, whose single matching value is `vEx`. -/
theorem match_in_range_witness :
    (rEx.matchv [[0, 0]]).length = 1 ∧ np_tiny ≤ vEx ∧ vEx ≤ 1 :=
  match_in_range rEx [[0, 0]] vEx (by
    have h : rEx.matchv [[0, 0]] = [vEx] := rfl
    rw [h]
    exact List.mem_singleton_self vEx)

/-- C6: `Classifier.fit` reinitializes all posterior state before its loop
and is a deterministic function of `(X, y)` and the construction-time
fields, so calling it twice in a row yields the identical classifier —
in particular the same `W_`, `Lambda_`, `Lambda_1_` and `L_q_`. -/
theorem fit_idempotent {N DX Dy : ℕ} (nl : NumLib DX)
    (c : Classifier N DX Dy) (X : Matrix (Fin N) (Fin DX) ℝ)
    (y : Matrix (Fin N) (Fin Dy) ℝ) :
    (c.fit nl X y).fit nl X y = c.fit nl X y := rfl

/-- The fuel-bounded while loop runs the step function exactly `k` times,
where `k` is at most the fuel, every state before the `k`-th step still had
improvement above the threshold, and the loop stopped either because the
fuel (iteration cap) ran out or because the improvement fell to or below
the threshold. -/
lemma fitLoop_spec {N DX Dy : ℕ} (f : LoopSt N DX Dy → LoopSt N DX Dy)
    (DELTA : ℝ) (fuel : ℕ) (ls : LoopSt N DX Dy) :
    ∃ k, k ≤ fuel ∧ fitLoop f DELTA fuel ls = f^[k] ls
      ∧ (∀ j < k, (DELTA : EReal) < (f^[j] ls).delta_L_q)
      ∧ (k = fuel ∨ (f^[k] ls).delta_L_q ≤ (DELTA : EReal)) := by
  induction fuel generalizing ls with
  | zero =>
    exact ⟨0, le_rfl, rfl, fun j hj => absurd hj (Nat.not_lt_zero j),
      Or.inl rfl⟩
  | succ fuel ih =>
    by_cases h : (DELTA : EReal) < ls.delta_L_q
    · obtain ⟨k, hk, heq, hall, hend⟩ := ih (f ls)
      refine ⟨k + 1, Nat.succ_le_succ hk, ?_, ?_, ?_⟩
      · rw [show fitLoop f DELTA (fuel + 1) ls
            = fitLoop f DELTA fuel (f ls) from by rw [fitLoop, if_pos h],
          heq, Function.iterate_succ_apply]
      · intro j hj
        cases j with
        | zero => simpa using h
        | succ j =>
          rw [Function.iterate_succ_apply]
          exact hall j (Nat.lt_of_succ_lt_succ hj)
      · rcases hend with he | he
        · exact Or.inl (by rw [he])
        · exact Or.inr (by rw [Function.iterate_succ_apply]; exact he)
    · refine ⟨0, Nat.zero_le _, ?_,
        fun j hj => absurd hj (Nat.not_lt_zero j), Or.inr (not_lt.mp h)⟩
      rw [show fitLoop f DELTA (fuel + 1) ls = ls from by
        rw [fitLoop, if_neg h]]
      rfl

/-- C9: the coordinate-ascent loop of `Classifier.fit` runs the loop body
some `k ≤ MAX_ITER` times, where every iteration before the `k`-th still
had bound improvement strictly above `DELTA_S_L_K_Q`, and it stopped either
at the iteration cap or at the first iteration whose improvement was at or
below the threshold. -/
theorem fit_loop_terminates {N DX Dy : ℕ} (nl : NumLib DX)
    (c : Classifier N DX Dy) (X : Matrix (Fin N) (Fin DX) ℝ)
    (y : Matrix (Fin N) (Fin Dy) ℝ) :
    ∃ k, k ≤ c.hyper.MAX_ITER
      ∧ fitLoop (fitStep nl c.hyper X y
            (Matrix.of fun n i => X n i * Real.sqrt (c.matchf X n))
            (Matrix.of fun n j => y n j * Real.sqrt (c.matchf X n)))
          c.hyper.DELTA_S_L_K_Q c.hyper.MAX_ITER (fitInit c.hyper (c.matchf X))
        = (fitStep nl c.hyper X y
            (Matrix.of fun n i => X n i * Real.sqrt (c.matchf X n))
            (Matrix.of fun n j => y n j * Real.sqrt (c.matchf X n)))^[k]
            (fitInit c.hyper (c.matchf X))
      ∧ (∀ j < k, (c.hyper.DELTA_S_L_K_Q : EReal)
          < ((fitStep nl c.hyper X y
              (Matrix.of fun n i => X n i * Real.sqrt (c.matchf X n))
              (Matrix.of fun n j => y n j * Real.sqrt (c.matchf X n)))^[j]
              (fitInit c.hyper (c.matchf X))).delta_L_q)
      ∧ (k = c.hyper.MAX_ITER
          ∨ ((fitStep nl c.hyper X y
              (Matrix.of fun n i => X n i * Real.sqrt (c.matchf X n))
              (Matrix.of fun n j => y n j * Real.sqrt (c.matchf X n)))^[k]
              (fitInit c.hyper (c.matchf X))).delta_L_q
            ≤ (c.hyper.DELTA_S_L_K_Q : EReal)) :=
  fitLoop_spec _ _ _ _

/-- C7 (code-bug exhibit): `predict_var` performs no check on the posterior
noise shape.  At a fitted classifier with `a_tau_ = 1/2 ≤ 1` it silently
returns the value `2 b_tau_ / (a_tau_ - 1) * (1 + x Λ⁻¹ xᵀ) = -8` — a
negative "variance" — instead of failing with an undefined-moment error. -/
theorem predict_var_no_moment_check :
    badState.a_tau_ ≤ 1 ∧
    badClassifier.predict_var (1 : Matrix (Fin 1) (Fin 1) ℝ)
      = Except.ok (Matrix.of fun _ _ => (-8 : ℝ)) := by
  refine ⟨by norm_num [badState], ?_⟩
  show Except.ok _ = _
  refine congrArg Except.ok ?_
  ext n j
  fin_cases n
  fin_cases j
  simp [badState, Matrix.one_apply, Matrix.one_mul]
  norm_num

/-- C8 (code-bug exhibit): the axis-selection weights in `mutate` come from
`np.argsort(-eigvals) + 1`, which is the sorting permutation, not the rank
of each axis (the comment in the code says it ranks the eigenvalues).  At
the pairwise-distinct eigenvalues `[1, 3, 2]` the weights are
`[2/6, 3/6, 1/6]`: the axis with the larger eigenvalue `2` receives a
strictly smaller weight than the axis with eigenvalue `1`. -/
theorem mutate_weights_not_monotone :
    ([(1 : ℚ), 3, 2].getD 0 0 < [(1 : ℚ), 3, 2].getD 2 0)
      ∧ (mutate_weights [(1 : ℚ), 3, 2]).getD 2 0
        < (mutate_weights [(1 : ℚ), 3, 2]).getD 0 0 := by
  have hranks : mutate_ranks [(1 : ℚ), 3, 2] = [2, 3, 1] := by decide
  have hweights : mutate_weights [(1 : ℚ), 3, 2] = [2 / 6, 3 / 6, 1 / 6] := by
    unfold mutate_weights
    rw [hranks]
    norm_num
  rw [hweights]
  norm_num [List.getD_cons_succ, List.getD_cons_zero]

/-- C10: `mutate` returns the mutated region itself, having changed only
`eigvals` (via `_stretch`) and `eigvecs` (via `_rotate`): the mean, the
`has_bias` flag and the adjusted dimensionality `D_X_adj` are identical
before and after the call. -/
theorem mutate_frame {d : ℕ} (r : RadialMatch d)
    (q vol pscale s_stretch : ℝ) (i0 : Fin d) (draws : Fin d → ℝ)
    (i1 i2 : Fin d) (angle_draw s_rot : ℝ) :
    (mutate r q vol pscale s_stretch i0 draws i1 i2 angle_draw s_rot).mean
        = r.mean
      ∧ (mutate r q vol pscale s_stretch i0 draws i1 i2 angle_draw
          s_rot).has_bias = r.has_bias
      ∧ (mutate r q vol pscale s_stretch i0 draws i1 i2 angle_draw
          s_rot).D_X_adj = r.D_X_adj :=
  ⟨rfl, rfl, rfl⟩

end Berbl
